import Mathlib

/-!
Verification of the go-corset constraint compiler / trace validator core.
-/

namespace Corset

/-- The modulus of the BLS12-377 scalar field `fr`, over which all trace
values and constraint arithmetic live. -/
def frModulus : ℕ :=
  8444461749428370424248824938781546531375899335154063827935233455917409239041

/-- A field element (`fr.Element` in the source). -/
abbrev F : Type := ZMod frModulus

/-- A trace column: a sequence of field values plus an optional padding
value (the source stores padding as a possibly-nil pointer). -/
structure Column where
  data : List F
  padding : Option F
deriving DecidableEq

/-- Modelled from the spec: the trace store (`pkg/trace` / `pkg/table`) is
not under src/.  Row index `k < 0` returns the padding value, as does
`k ≥ height`; in-range indices return the stored value. -/
def Column.get (c : Column) (k : ℤ) : Option F :=
  if k < 0 then c.padding
  else if h : k.toNat < c.data.length then some (c.data.get ⟨k.toNat, h⟩)
  else c.padding

/-- A trace: column-keyed storage, looked up by name
(`Trace.GetByName` in the source). -/
abbrev Trace : Type := List (String × Column)

/-- Look a column up by name. -/
def Trace.getCol (tr : Trace) (n : String) : Option Column :=
  (tr.find? (fun p => p.1 = n)).map (fun p => p.2)

/-- Modelled from the spec: `Trace.GetByName` itself is not under src/.
Per the spec's row-index rule, a present column yields the
padding-substituted value; a missing column (or nil padding read) yields
nothing, which the callers in src/ treat as an out-of-bounds error. -/
def Trace.getByName (tr : Trace) (n : String) (k : ℤ) : Option F :=
  (tr.getCol n).bind (fun c => c.get k)

/-- Whether the trace holds a column of the given name
(`Trace.HasColumn`). -/
def Trace.hasColumn (tr : Trace) (n : String) : Bool :=
  (tr.getCol n).isSome

/-- MIR/AIR expressions (`mir.Expr`; the AIR flavour admits only the
first five constructors). -/
inductive Expr where
  | Constant (value : F)
  | ColumnAccess (column : String) (shift : ℤ)
  | Add (args : List Expr)
  | Sub (args : List Expr)
  | Mul (args : List Expr)
  | Normalise (arg : Expr)
  | Exp (arg : Expr) (pow : ℕ)

/-- The outcome of evaluating an expression at a row: a field value, the
nil pointer (out-of-bounds / missing column), or a Go runtime fault
(e.g. indexing an empty argument list, or dereferencing nil). -/
inductive EvalResult where
  | val (v : F)
  | nil
  | fault
deriving DecidableEq

mutual

/-- `EvalAt` for MIR expressions, following `mir.*.EvalAt` in the source.
The `Exp` case is modelled from the spec (repeated multiplication); its
evaluator is not under src/. -/
def Expr.evalAt : Expr → ℤ → Trace → EvalResult
  | .Constant v, _, _ => .val v
  | .ColumnAccess n s, k, tr =>
      match tr.getByName n (k + s) with
      | none => .nil
      | some v => .val v
  | .Add args, k, tr => evalExprsAt k tr args (fun a b => a + b)
  | .Sub args, k, tr => evalExprsAt k tr args (fun a b => a - b)
  | .Mul args, k, tr => evalExprsAt k tr args (fun a b => a * b)
  | .Normalise a, k, tr =>
      -- the source calls `val.IsZero()` without a nil check, so a nil
      -- argument is a runtime fault
      match a.evalAt k tr with
      | .val v => .val (if v = 0 then 0 else 1)
      | _ => .fault
  | .Exp a p, k, tr =>
      match a.evalAt k tr with
      | .val v => .val (v ^ p)
      | r => r

/-- `evalExprsAt`: evaluate a slice of expressions and fold the results
left-to-right.  The source reads `exprs[0]` unconditionally, so an empty
slice is a runtime fault. -/
def evalExprsAt (k : ℤ) (tr : Trace) (exprs : List Expr) (fn : F → F → F) :
    EvalResult :=
  match exprs with
  | [] => .fault
  | e :: rest =>
      match e.evalAt k tr with
      | .val v => evalRestAt k tr rest fn v
      | r => r

/-- The loop over the remaining arguments inside `evalExprsAt`. -/
def evalRestAt (k : ℤ) (tr : Trace) (exprs : List Expr) (fn : F → F → F)
    (acc : F) : EvalResult :=
  match exprs with
  | [] => .val acc
  | e :: rest =>
      match e.evalAt k tr with
      | .val w => evalRestAt k tr rest fn (fn acc w)
      | r => r

end

/-- A vanishing constraint: `expr` must evaluate to zero on every row of
the domain (`nil` domain means all rows). -/
structure VanishingConstraint where
  handle : String
  domain : Option ℤ
  expr : Expr

/-- A computed column (`table.ComputedColumn`): its expression determines
its value at every row during trace expansion. -/
structure ComputedColumn where
  name : String
  expr : Expr

/-- A sorted permutation (`table.SortedPermutation`): target columns are
a sorted copy of the source columns. -/
structure SortedPermutation where
  Targets : List String
  Signs : List Bool
  Sources : List String

/-- A registered trace computation (`schema.AddComputation`).  The
byte-decomposition computation itself (`table.ByteDecomposition`) is not
under src/ and is carried as an opaque tag. -/
inductive Computation where
  | computed (c : ComputedColumn)
  | sortedPerm (p : SortedPermutation)
  | byteDecomposition (col : String) (nbits : ℕ)

/-- Modelled from the spec: the AIR schema container (`air.Schema`) is
not under src/; per the spec a schema is ordered lists of columns,
constraints and assignments, and the `Add*` entry points append. -/
structure AirSchema where
  columns : List (String × Bool) := []
  ranges : List (String × F) := []
  vanishing : List VanishingConstraint := []
  computations : List Computation := []

/-- `schema.AddColumn(name, synthetic)`. -/
def AirSchema.addColumn (s : AirSchema) (n : String) (synthetic : Bool) :
    AirSchema :=
  { s with columns := s.columns ++ [(n, synthetic)] }

/-- `schema.AddRangeConstraint(name, bound)`. -/
def AirSchema.addRangeConstraint (s : AirSchema) (n : String) (bound : F) :
    AirSchema :=
  { s with ranges := s.ranges ++ [(n, bound)] }

/-- `schema.AddVanishingConstraint(handle, domain, expr)`. -/
def AirSchema.addVanishingConstraint (s : AirSchema) (vc : VanishingConstraint) :
    AirSchema :=
  { s with vanishing := s.vanishing ++ [vc] }

/-- `schema.AddComputation(c)`. -/
def AirSchema.addComputation (s : AirSchema) (c : Computation) : AirSchema :=
  { s with computations := s.computations ++ [c] }

/-- `ApplyBinaryGadget` from `pkg/air/gagets.go`: installs the vanishing
constraint built from `X`, `X-1` and the product `Mul{X, X, X-1}`. -/
def ApplyBinaryGadget (col : String) (schema : AirSchema) : AirSchema :=
  let one : F := 1
  let X : Expr := .ColumnAccess col 0
  let X_m1 : Expr := .Sub [X, .Constant one]
  let X_X_m1 : Expr := .Mul [X, X, X_m1]
  schema.addVanishingConstraint ⟨col, none, X_X_m1⟩

/-- The outcome of a gadget application: either the rewritten schema or a
Go runtime abort. -/
inductive GadgetResult where
  | ok (s : AirSchema)
  | panicked (msg : String)

/-- `ApplyBitwidthGadget` from `pkg/air/gagets.go`: byte decomposition of
a column into `nbits/8` byte columns, range constraints `[0,256)`, one
vanishing constraint `X - Σ X:i·256^i`, and a byte-decomposition
computation.  Non-byte-aligned and zero widths abort. -/
def ApplyBitwidthGadget (col : String) (nbits : ℕ) (schema : AirSchema) :
    GadgetResult :=
  if nbits % 8 ≠ 0 then
    .panicked "asymetric bitwidth constraints not yet supported"
  else if nbits = 0 then
    .panicked "zero bitwidth constraint encountered"
  else
    let n := nbits / 8
    let step : AirSchema × List Expr × F → ℕ → AirSchema × List Expr × F :=
      fun acc i =>
        let colName := col ++ ":" ++ toString i
        let sch := (acc.1.addColumn colName true).addRangeConstraint colName 256
        (sch, acc.2.1 ++ [Expr.Mul [.ColumnAccess colName 0, .Constant acc.2.2]],
         acc.2.2 * 256)
    let res := (List.range n).foldl step (schema, [], 1)
    let sum := Expr.Add res.2.1
    let X := Expr.ColumnAccess col 0
    let eq := Expr.Sub [X, sum]
    .ok ((res.1.addVanishingConstraint ⟨col, none, eq⟩).addComputation
      (.byteDecomposition col nbits))

/-- Modelled from the spec: the vanishing-constraint acceptor
(`air.VanishingConstraint.Accepts`) is not under src/; per the spec a
vanishing constraint with no domain fails at the first row `k < height`
where the expression does not evaluate to zero. -/
def vanishingAccepts (vc : VanishingConstraint) (height : ℕ) (tr : Trace) :
    Option (String × ℕ) :=
  match vc.domain with
  | none =>
      match (List.range height).find?
          (fun (k : ℕ) => decide (vc.expr.evalAt (k : ℤ) tr ≠ .val 0)) with
      | some k => some (vc.handle, k)
      | none => none
  | some d =>
      let k : ℤ := if d < 0 then (height : ℤ) + d else d
      if vc.expr.evalAt k tr = .val 0 then none else some (vc.handle, k.toNat)

/-- Modelled from the spec: the trace height (number of rows) is not
under src/; per the spec a trace assigns values to every column over a
fixed number of rows, so the first column's length is taken. -/
def Trace.height (tr : Trace) : ℕ :=
  match tr with
  | [] => 0
  | (_, c) :: _ => c.data.length

/-- The outcome of a trace-expansion step: the extended trace, a returned
error value, or a Go runtime abort. -/
inductive ExpandResult where
  | ok (tr : Trace)
  | err (msg : String)
  | panicked (msg : String)

/-- `table.ComputedColumn.ExpandTrace`: errors if the column already
exists, otherwise fills every row with the expression's value (zero when
the value is nil) and pads with the row `-1` value (stored even when
nil). -/
def ComputedColumn.ExpandTrace (c : ComputedColumn) (tr : Trace) :
    ExpandResult :=
  if tr.hasColumn c.name then
    .err ("Computed column already exists (\x7b" ++ c.name ++ "\x7d)")
  else
    match (List.range tr.height).mapM (fun (i : ℕ) =>
        match c.expr.evalAt (i : ℤ) tr with
        | .val v => some v
        | .nil => some 0
        | .fault => none) with
    | none => .panicked "evaluation fault"
    | some data =>
        match c.expr.evalAt (-1) tr with
        | .fault => .panicked "evaluation fault"
        | .val v => .ok (tr ++ [(c.name, ⟨data, some v⟩)])
        | .nil => .ok (tr ++ [(c.name, ⟨data, none⟩)])

/-- Modelled from the spec: the comparator backing `util.PermutationSort`
and `util.AreLexicographicallySorted` is not under src/; rows are
compared column by column, ascending when the sign is true, on canonical
integer representatives (as `fr.Element.Cmp` does). -/
def lexLe (signs : List Bool) : List F → List F → Bool
  | _, [] => true
  | [], _ => true
  | a :: as_, b :: bs =>
      match signs with
      | [] => true
      | sgn :: ss =>
          if a = b then lexLe ss as_ bs
          else if sgn then decide (a.val < b.val) else decide (b.val < a.val)

/-- Modelled from the spec: `util.PermutationSort` is not under src/; it
jointly sorts the given columns so that rows are in lexicographic order
per the signs. -/
def permutationSort (cols : List (List F)) (signs : List Bool) :
    List (List F) :=
  let rows := cols.transpose
  let sorted := rows.insertionSort (fun r1 r2 => lexLe signs r1 r2 = true)
  (List.range cols.length).map (fun j => sorted.map (fun r => r.getD j 0))

/-- `table.SortedPermutation.ExpandTrace`: aborts if a target column
already exists or a source column is missing, otherwise adds each target
as a sorted copy of the sources, with the source's padding. -/
def SortedPermutation.ExpandTrace (p : SortedPermutation) (tr : Trace) :
    ExpandResult :=
  if p.Targets.any tr.hasColumn then
    .panicked "target column already exists"
  else if p.Sources.length < p.Targets.length then
    .panicked "index out of range"
  else
    match (p.Targets.zip p.Sources).mapM
        (fun ts => (tr.getCol ts.2).map (fun c => (ts.1, c))) with
    | none => .panicked "missing source column"
    | some pairs =>
        let cols := permutationSort (pairs.map (fun pc => pc.2.data)) p.Signs
        .ok (tr ++ (pairs.zip cols).map
          (fun pc => (pc.1.1, ⟨pc.2, pc.1.2.padding⟩)))

/-- The shift bounds of an expression (`util.Bounds`): maximum backward
(`Start`) and forward (`End`) shift. -/
structure Bounds where
  Start : ℕ
  End : ℕ
deriving DecidableEq

/-- Union of bounds, taking the larger reach on both sides. -/
def Bounds.union (a b : Bounds) : Bounds :=
  ⟨max a.Start b.Start, max a.End b.End⟩

mutual

/-- Modelled from the spec: `Expr.Bounds()` is not under src/; per the
spec it returns the maximum backward and forward shift reachable from
any `ColumnAccess` in the expression. -/
def Expr.bounds : Expr → Bounds
  | .Constant _ => ⟨0, 0⟩
  | .ColumnAccess _ s => if s < 0 then ⟨s.natAbs, 0⟩ else ⟨0, s.toNat⟩
  | .Add args => boundsOfList args
  | .Sub args => boundsOfList args
  | .Mul args => boundsOfList args
  | .Normalise a => a.bounds
  | .Exp a _ => a.bounds

/-- Bounds of a list of expressions, folded by union. -/
def boundsOfList : List Expr → Bounds
  | [] => ⟨0, 0⟩
  | e :: rest => (Expr.bounds e).union (boundsOfList rest)

end

/-- `RequiredSpillage` of a single assignment: a computed column needs
its expression's maximum positive shift (`Bounds().End`); sorted
permutations need none.  The byte-decomposition computation
(`table.ByteDecomposition`) is not under src/; per the spec its byte
columns involve no shifted accesses, so it needs none. -/
def Computation.RequiredSpillage : Computation → ℕ
  | .computed c => c.expr.bounds.End
  | .sortedPerm _ => 0
  | .byteDecomposition _ _ => 0

/-- `schema.RequiredSpillage`: at least one row of spillage (the initial
padding row), folded with each assignment's own requirement. -/
def schemaRequiredSpillage (assignments : List Computation) : ℕ :=
  assignments.foldl (fun mx a => max mx a.RequiredSpillage) 1

/-- Total column read used by the newer-generation trace interface
(`Column.Get` returns a value there); a nil padding read is modelled as
zero. -/
def Column.getV (c : Column) (k : ℤ) : F :=
  (c.get k).getD 0

/-- The lexicographic-sort assignment
(`assignment.LexicographicSort`): `sources` are column indices into the
trace and `signs` the per-column sort directions. -/
structure LexicographicSort where
  sources : List ℕ
  signs : List Bool
  bitwidth : ℕ

/-- `trace.Column(j)`: indexed column access. -/
def traceColumn (cols : List Column) (j : ℕ) : Column :=
  cols.getD j ⟨[], none⟩

/-- One row of `LexicographicSort.ComputeColumns`: walk the source
columns in order carrying the `set` flag and current delta; the first
source whose value differs from the previous row wins the selector bit
and determines the delta. -/
def lexRow : List (Column × Bool) → ℤ → Bool → F → F × List F
  | [], _, _, d => (d, [])
  | (col, sgn) :: rest, i, set, d =>
      let prev := col.getV (i - 1)
      let curr := col.getV i
      if ¬ set ∧ prev ≠ curr then
        let d' := if sgn then curr - prev else prev - curr
        let r := lexRow rest i true d'
        (r.1, 1 :: r.2)
      else
        let r := lexRow rest i set d
        (r.1, 0 :: r.2)

/-- `LexicographicSort.ComputeColumns`: the delta column and one selector
column per source, computed row by row over the module's height. -/
def LexicographicSort.ComputeColumns (p : LexicographicSort)
    (cols : List Column) (nrows : ℕ) : List F × List (List F) :=
  let pairs := (p.sources.map (traceColumn cols)).zip p.signs
  let rows := (List.range nrows).map (fun (i : ℕ) => lexRow pairs (i : ℤ) false 0)
  (rows.map (fun r => r.1),
   (List.range pairs.length).map (fun j => rows.map (fun r => r.2.getD j 0)))

/-- HIR expressions (`hir.Expr`): the high-level flavour with
conditionals and lists. -/
inductive HExpr where
  | Constant (val : F)
  | ColumnAccess (column : String) (shift : ℤ)
  | Add (args : List HExpr)
  | Sub (args : List HExpr)
  | Mul (args : List HExpr)
  | Exp (arg : HExpr) (pow : ℕ)
  | Normalise (arg : HExpr)
  | IfZero (condition : HExpr) (trueBranch : Option HExpr)
      (falseBranch : Option HExpr)
  | List (args : List HExpr)

/-- The cross product performed by `expandWithNaryConstructorHelper`:
all ways of picking one expansion per argument, outer loop over the
first argument. -/
def crossProduct : List (List HExpr) → List (List HExpr)
  | [] => [[]]
  | xs :: rest => xs.flatMap (fun x => (crossProduct rest).map (fun ys => x :: ys))

/-- Flattening of nested sums inside the `Add` constructor of
`expand`. -/
def flattenAdd (l : List HExpr) : List HExpr :=
  l.flatMap (fun e =>
    match e with
    | .Add args => args
    | _ => [e])

/-- Flattening of nested products inside the `Mul` constructor of
`expand`. -/
def flattenMul (l : List HExpr) : List HExpr :=
  l.flatMap (fun e =>
    match e with
    | .Mul args => args
    | _ => [e])

mutual

/-- `expand` from the HIR lowering: eliminate lists, split conditionals
into one-branch conditionals, and cross-multiply n-ary arguments. -/
def expand : HExpr → List HExpr
  | .Add args =>
      (crossProduct (expandList args)).map (fun nargs => .Add (flattenAdd nargs))
  | .Constant v => [.Constant v]
  | .ColumnAccess n s => [.ColumnAccess n s]
  | .Mul args =>
      (crossProduct (expandList args)).map (fun nargs => .Mul (flattenMul nargs))
  | .List args => expandConcat args
  | .Exp a p => (expand a).map (fun ee => .Exp ee p)
  | .Normalise a => (expand a).map (fun ee => .Normalise ee)
  | .IfZero c tb fb =>
      (match tb with
       | some t =>
           (expand c).flatMap (fun i =>
             (expand t).map (fun j => HExpr.IfZero i (some j) none))
       | none => []) ++
      (match fb with
       | some f =>
           (expand c).flatMap (fun i =>
             (expand f).map (fun j => HExpr.IfZero i none (some j)))
       | none => [])
  | .Sub args =>
      (crossProduct (expandList args)).map (fun nargs => .Sub nargs)

/-- Expansion mapped over an argument list. -/
def expandList : List HExpr → List (List HExpr)
  | [] => []
  | e :: rest => expand e :: expandList rest

/-- Concatenated expansion of a `List` expression's arguments. -/
def expandConcat : List HExpr → List HExpr
  | [] => []
  | e :: rest => expand e ++ expandConcat rest

end

mutual

/-- `extractBody`: the structural translation of an expanded HIR
expression into MIR, dropping the unused branch of each `IfZero`.
`none` is a Go runtime fault (unexpanded conditional, branchless
conditional, or a `List` reaching extraction). -/
def extractBody : HExpr → Option Expr
  | .Add args => (extractBodies args).map Expr.Add
  | .Constant v => some (.Constant v)
  | .ColumnAccess c s => some (.ColumnAccess c s)
  | .Mul args => (extractBodies args).map Expr.Mul
  | .Exp a p => (extractBody a).map (fun b => Expr.Exp b p)
  | .Normalise a => (extractBody a).map Expr.Normalise
  | .IfZero _ tb fb =>
      match tb, fb with
      | some _, some _ => none
      | some t, none => extractBody t
      | none, some f => extractBody f
      | none, none => none
  | .Sub args => (extractBodies args).map Expr.Sub
  | .List _ => none

/-- `extractBodies`: extraction mapped over an argument list. -/
def extractBodies : List HExpr → Option (List Expr)
  | [] => some []
  | e :: rest => do
      let b ← extractBody e
      let bs ← extractBodies rest
      pure (b :: bs)

end

/-- `mul2`: multiply two possibly-nil MIR expressions, fusing adjacent
products (the Go version appends into the existing `Mul` node). -/
def mul2 : Option Expr → Option Expr → Option Expr
  | none, rhs => rhs
  | some l, none => some l
  | some l, some r =>
      match l, r with
      | .Mul la, .Mul ra => some (.Mul (la ++ ra))
      | .Mul la, _ => some (.Mul (la ++ [r]))
      | _, .Mul ra => some (.Mul (ra ++ [l]))
      | _, _ => some (.Mul [l, r])

/-- `mul3`: multiply three possibly-nil MIR expressions. -/
def mul3 (lhs mhs rhs : Option Expr) : Option Expr :=
  mul2 lhs (mul2 mhs rhs)

mutual

/-- `extractCondition`: the multiplicative guard of an expanded HIR
expression (`none` inside means unconditional; the outer `none` is a Go
runtime fault). -/
def extractCondition : HExpr → Option (Option Expr)
  | .Add args => extractConditions args
  | .Constant _ => some none
  | .ColumnAccess _ _ => some none
  | .Mul args => extractConditions args
  | .Normalise a => extractCondition a
  | .Exp a _ => extractCondition a
  | .IfZero c tb fb => extractIfZeroCondition (.IfZero c tb fb)
  | .Sub args => extractConditions args
  | .List _ => none

/-- `extractConditions`: fold the guards of an argument list together
with `mul2`, starting from nil. -/
def extractConditions (es : List HExpr) : Option (Option Expr) :=
  extractConditionsAux none es

/-- The loop inside `extractConditions`. -/
def extractConditionsAux : Option Expr → List HExpr → Option (Option Expr)
  | r, [] => some r
  | r, e :: rest => do
      let ce ← extractCondition e
      extractConditionsAux (mul2 r ce) rest

/-- `extractIfZeroCondition`: the guard of a one-branch conditional.
Keeping the true branch contributes `1 - Normalise(extractBody(cond))`;
keeping the false branch contributes `extractBody(cond)`; both are
multiplied with the guards of the condition and of the kept branch. -/
def extractIfZeroCondition : HExpr → Option (Option Expr)
  | .IfZero c tb fb => do
      let cc ← extractCondition c
      let cb ← extractBody c
      match tb, fb with
      | some _, some _ => none
      | some t, none => do
          let bc ← extractCondition t
          pure (mul3 cc (some (Expr.Sub [Expr.Constant 1, Expr.Normalise cb])) bc)
      | none, some f => do
          let bc ← extractCondition f
          pure (mul3 cc (some cb) bc)
      | none, none => none
  | _ => none

end

/-- One element of the loop inside `lowerTo`: guard times body. -/
def lowerToOne (e : HExpr) : Option Expr := do
  let c ← extractCondition e
  let b ← extractBody e
  mul2 c (some b)

/-- `lowerTo`: expand an HIR expression, then extract each expansion as
condition times body. -/
def lowerTo (e : HExpr) : Option (List Expr) :=
  (expand e).mapM lowerToOne

mutual

/-- Modelled from the spec: the HIR evaluator (`hir.Expr.EvalAt`) is not
under src/.  Per the spec, `⊥` (here `none`) signals out-of-bounds at the
HIR level: a shifted access outside `[0, height)` or a missing column is
undefined; a missing conditional branch is the constant zero. -/
def HExpr.evalAt? : HExpr → ℤ → Trace → Option F
  | .Constant v, _, _ => some v
  | .ColumnAccess n s, k, tr =>
      match tr.getCol n with
      | none => none
      | some c => if k + s < 0 then none else c.data.get? (k + s).toNat
  | .Add args, k, tr => hEvalFold args k tr (fun a b => a + b)
  | .Sub args, k, tr => hEvalFold args k tr (fun a b => a - b)
  | .Mul args, k, tr => hEvalFold args k tr (fun a b => a * b)
  | .Exp a p, k, tr => (a.evalAt? k tr).map (fun v => v ^ p)
  | .Normalise a, k, tr =>
      (a.evalAt? k tr).map (fun v => if v = 0 then 0 else 1)
  | .IfZero c tb fb, k, tr =>
      (c.evalAt? k tr).bind (fun cv =>
        if cv = 0 then
          match tb with
          | some t => t.evalAt? k tr
          | none => some 0
        else
          match fb with
          | some f => f.evalAt? k tr
          | none => some 0)
  | .List _, _, _ => none

/-- Left-to-right fold of HIR argument evaluations, strict in `⊥`. -/
def hEvalFold (args : List HExpr) (k : ℤ) (tr : Trace) (fn : F → F → F) :
    Option F :=
  match args with
  | [] => none
  | a :: rest => (a.evalAt? k tr).bind (fun v => hEvalRest rest k tr fn v)

/-- The loop over the remaining arguments inside `hEvalFold`. -/
def hEvalRest (args : List HExpr) (k : ℤ) (tr : Trace) (fn : F → F → F)
    (acc : F) : Option F :=
  match args with
  | [] => some acc
  | a :: rest => (a.evalAt? k tr).bind (fun v => hEvalRest rest k tr fn (fn acc v))

end

mutual

/-- Modelled from the spec: `hir.Expr.EvalAllAt` is not under src/; a
`List` expression yields the concatenation of its arguments' values, any
other expression yields its single (possibly undefined) value. -/
def HExpr.evalAllAt : HExpr → ℤ → Trace → List (Option F)
  | .List args, k, tr => evalAllList args k tr
  | e, k, tr => [e.evalAt? k tr]

/-- Concatenated evaluation of a `List` expression's arguments. -/
def evalAllList : List HExpr → ℤ → Trace → List (Option F)
  | [], _, _ => []
  | e :: rest, k, tr => e.evalAllAt k tr ++ evalAllList rest k tr

end

/-- `hir.ZeroArrayTest`: wraps an HIR expression as a testable vanishing
constraint. -/
structure ZeroArrayTest where
  expr : HExpr

/-- The loop inside `ZeroArrayTest.TestAt`: a value fails the test only
when it is non-nil and non-zero; nil values are skipped. -/
def testValsLoop : List (Option F) → Bool
  | [] => true
  | v :: rest =>
      match v with
      | some x => if x = 0 then testValsLoop rest else false
      | none => testValsLoop rest

/-- `ZeroArrayTest.TestAt`: evaluate the wrapped expression at the row
and test every produced value against zero, skipping undefined ones. -/
def ZeroArrayTest.TestAt (p : ZeroArrayTest) (row : ℤ) (tr : Trace) : Bool :=
  testValsLoop (p.expr.evalAllAt row tr)

/-- The per-batch error fold of `processConstraintBatch`: each non-nil
error received from the channel overwrites the previous one, so the last
failing result in arrival order wins. -/
def lastError (l : List (Option ℕ)) : Option ℕ :=
  l.foldl (fun acc e =>
    match e with
    | none => acc
    | some _ => e) none

/-- The first failing result in declaration order (what the spec's
tie-break by declaration index would return). -/
def firstFailure : List (Option ℕ) → Option ℕ
  | [] => none
  | some e :: _ => some e
  | none :: rest => firstFailure rest

/-- Reorder a batch's per-constraint results into channel arrival order:
`order` lists the constraint positions in the order their goroutines'
results are received. -/
def applySchedule (batch : List (Option ℕ)) (order : List ℕ) :
    List (Option ℕ) :=
  order.map (fun i => batch.getD i none)

/-- `processConstraintBatch`: launch one checker per constraint of the
batch and fold the channel results, keeping the last error received. -/
def processConstraintBatch (batch : List (Option ℕ)) (order : List ℕ) :
    Option ℕ :=
  lastError (applySchedule batch order)

/-- The batch partition of the constraint list performed by the loop in
`Accepts` (`batchsize` constraints are drawn from the iterator per
batch; the Go loop does not terminate for batch size zero, which is
therefore mapped to no batches). -/
def chunks (bs : ℕ) (l : List (Option ℕ)) : List (List (Option ℕ)) :=
  if bs = 0 ∨ l = [] then []
  else l.take bs :: chunks bs (l.drop bs)
termination_by l.length
decreasing_by
  rename_i h
  push_neg at h
  have h1 : l ≠ [] := h.2
  cases l with
  | nil => exact absurd rfl h1
  | cons a rest =>
      simp only [List.drop, List.length_cons, List.length_drop]
      omega

/-- The batch loop of `schema.Accepts`: process batches in order,
returning the first batch's error and skipping later batches once one
fails. -/
def runBatches : List (List (Option ℕ)) → List (List ℕ) → Option ℕ
  | [], _ => none
  | b :: rest, o :: os =>
      match processConstraintBatch b o with
      | some e => some e
      | none => runBatches rest os
  | _ :: _, [] => none

/-- `schema.Accepts(batchsize, schema, trace)` with the per-constraint
outcomes precomputed in declaration order (`results`) and the channel
arrival orders made explicit (`sched`, one order per batch). -/
def acceptsRun (bs : ℕ) (results : List (Option ℕ)) (sched : List (List ℕ)) :
    Option ℕ :=
  runBatches (chunks bs results) sched

/-- The trace `X = [0, 2]` from the binarity scenario. -/
def trX02 : Trace := [("X", ⟨[0, 2], some 0⟩)]

/-- The trace `X = [0, 1, 0, 1]` from the binarity scenario. -/
def trX0101 : Trace := [("X", ⟨[0, 1, 0, 1], some 0⟩)]

/-- The expression installed by the binarity gadget on column `X`. -/
def binaryGadgetExpr : Expr :=
  .Mul [.ColumnAccess "X" 0, .ColumnAccess "X" 0,
    .Sub [.ColumnAccess "X" 0, .Constant 1]]

/-- C2: at the MIR level a column access is total over all row indices,
including `k < 0` and `k ≥ height`: with the accessed column present
(and its padding set), evaluation returns the padding-substituted value
of the column at index `k + s` and never the nil/undefined result. -/
theorem mir_column_access_total (n : String) (s k : ℤ) (tr : Trace)
    (col : Column) (p : F)
    (h1 : tr.getCol n = some col) (h2 : col.padding = some p) :
    ∃ v : F, col.get (k + s) = some v ∧
      (Expr.ColumnAccess n s).evalAt k tr = .val v ∧
      ((k + s < 0 ∨ (col.data.length : ℤ) ≤ k + s) → v = p) := by
  have hget : ∃ v : F, col.get (k + s) = some v ∧
      ((k + s < 0 ∨ (col.data.length : ℤ) ≤ k + s) → v = p) := by
    unfold Column.get
    split_ifs with hneg hlen
    · exact ⟨p, h2, fun _ => rfl⟩
    · refine ⟨_, rfl, fun hcase => ?_⟩
      exfalso
      rcases hcase with hcase | hcase <;> omega
    · exact ⟨p, h2, fun _ => rfl⟩
  obtain ⟨v, hv, hp⟩ := hget
  refine ⟨v, hv, ?_, hp⟩
  simp [Expr.evalAt, Trace.getByName, h1, hv]

/-- Closed instance of `mir_column_access_total` at a concrete trace and
an out-of-range row. -/
theorem mir_column_access_total_witness :
    (Expr.ColumnAccess "X" 1).evalAt (-3) [("X", ⟨[5], some 9⟩)] = .val 9 := by
  obtain ⟨v, hv, he, hp⟩ :=
    mir_column_access_total "X" 1 (-3) [("X", ⟨[5], some 9⟩)] ⟨[5], some 9⟩ 9
      (by rfl) (by rfl)
  rw [he, hp (by norm_num)]

/-- C9: evaluating an n-ary MIR `Add`, `Sub` or `Mul` with an empty
argument list is a runtime fault — the fold reads `exprs[0]`
unconditionally — so n-ary evaluation carries the precondition that the
argument list is non-empty. -/
theorem mir_nary_empty_args_fault (k : ℤ) (tr : Trace) :
    (Expr.Add []).evalAt k tr = .fault ∧
    (Expr.Sub []).evalAt k tr = .fault ∧
    (Expr.Mul []).evalAt k tr = .fault ∧
    (∀ fn : F → F → F, evalExprsAt k tr [] fn = .fault) := by
  refine ⟨?_, ?_, ?_, fun fn => ?_⟩ <;> simp [Expr.evalAt, evalExprsAt]

/-- Closed instance of `mir_nary_empty_args_fault` at row 0 of the empty
trace. -/
theorem mir_nary_empty_args_fault_witness :
    (Expr.Add []).evalAt 0 [] = .fault :=
  (mir_nary_empty_args_fault 0 []).1

/-- C3 fails on the code: the binarity gadget installs the product
`X·X·(X−1)`, which at row 1 of `X = [0, 2]` evaluates to `4`, not to
`X[1]·(X[1]−1) = 2`. -/
theorem binary_gadget_counterexample :
    (ApplyBinaryGadget "X" {}).vanishing = [⟨"X", none, binaryGadgetExpr⟩] ∧
    binaryGadgetExpr.evalAt 1 trX02 = .val 4 ∧
    (2 : F) * (2 - 1) = 2 ∧
    EvalResult.val (4 : F) ≠ EvalResult.val 2 :=
  ⟨rfl, by decide, by decide, by decide⟩

/-- C3 amended: the binarity gadget installs one vanishing constraint
whose expression is `X·X·(X−1)`, evaluating at any row to
`v·v·(v−1)` for the column's value `v` there; the trace `X=[0,1,0,1]` is
accepted and `X=[0,2]` fails as a vanishing failure at row 1. -/
theorem binary_gadget_amended (col : String) (schema : AirSchema)
    (tr : Trace) (k : ℤ) (v : F) (hv : tr.getByName col k = some v) :
    (ApplyBinaryGadget col schema).vanishing
        = schema.vanishing ++ [⟨col, none,
            .Mul [.ColumnAccess col 0, .ColumnAccess col 0,
              .Sub [.ColumnAccess col 0, .Constant 1]]⟩] ∧
    (Expr.Mul [.ColumnAccess col 0, .ColumnAccess col 0,
        .Sub [.ColumnAccess col 0, .Constant 1]]).evalAt k tr
        = .val (v * v * (v - 1)) ∧
    vanishingAccepts ⟨"X", none, binaryGadgetExpr⟩ 4 trX0101 = none ∧
    vanishingAccepts ⟨"X", none, binaryGadgetExpr⟩ 2 trX02 = some ("X", 1) := by
  refine ⟨rfl, ?_, by decide, by decide⟩
  have hk : k + 0 = k := by ring
  simp [Expr.evalAt, evalExprsAt, evalRestAt, hk, hv]

/-- Closed instance of `binary_gadget_amended` on `X = [0, 2]` at
row 1. -/
theorem binary_gadget_amended_witness :
    (Expr.Mul [.ColumnAccess "X" 0, .ColumnAccess "X" 0,
        .Sub [.ColumnAccess "X" 0, .Constant 1]]).evalAt 1 trX02
      = .val (2 * 2 * (2 - 1)) :=
  (binary_gadget_amended "X" {} trX02 1 2 (by decide)).2.1

/-- C5 fails on the code: a non-byte-aligned bitwidth makes the bitwidth
gadget abort the process (Go runtime abort), not return a structural
error value. -/
theorem bitwidth_gadget_counterexample :
    ApplyBitwidthGadget "X" 7 {}
      = .panicked "asymetric bitwidth constraints not yet supported" := rfl

/-- C5 amended: the bitwidth gadget aborts on any bitwidth that is not a
multiple of 8, and `SortedPermutation.ExpandTrace` likewise aborts when
a target column already exists; neither returns an error value. -/
theorem bitwidth_gadget_panics (col : String) (nbits : ℕ) (schema : AirSchema)
    (h : nbits % 8 ≠ 0) (p : SortedPermutation) (tr : Trace)
    (hp : p.Targets.any tr.hasColumn = true) :
    ApplyBitwidthGadget col nbits schema
        = .panicked "asymetric bitwidth constraints not yet supported" ∧
    p.ExpandTrace tr = .panicked "target column already exists" := by
  constructor
  · simp [ApplyBitwidthGadget, h]
  · simp [SortedPermutation.ExpandTrace, hp]

/-- Closed instance of `bitwidth_gadget_panics` at width 7 and a trace
already holding the target column. -/
theorem bitwidth_gadget_panics_witness :
    ApplyBitwidthGadget "X" 7 {}
        = .panicked "asymetric bitwidth constraints not yet supported" ∧
    (SortedPermutation.mk ["Y"] [true] ["X"]).ExpandTrace [("Y", ⟨[], none⟩)]
        = .panicked "target column already exists" :=
  bitwidth_gadget_panics "X" 7 {} (by decide) ⟨["Y"], [true], ["X"]⟩
    [("Y", ⟨[], none⟩)] (by rfl)

/-- A trace extended past a column of name `n` reports that name as
present. -/
theorem hasColumn_of_mem (tr : Trace) (n : String) (x : String × Column)
    (hx : x ∈ tr) (hn : x.1 = n) : Trace.hasColumn tr n = true := by
  unfold Trace.hasColumn Trace.getCol
  cases hf : List.find? (fun p => decide (p.1 = n)) tr with
  | some y => rfl
  | none =>
      exfalso
      have := List.find?_eq_none.mp hf x hx
      simp [hn] at this

/-- A trace extended past a column of name `n` reports that name as
present. -/
theorem hasColumn_append_cons (tr : Trace) (n : String) (col : Column)
    (l : Trace) : Trace.hasColumn (tr ++ (n, col) :: l) n = true :=
  hasColumn_of_mem _ n (n, col) (by simp) rfl

/-- Inversion of `mapM` over `Option` on a cons cell. -/
theorem mapM_cons_inv {α β : Type} (f : α → Option β) (x : α) (xs : List α)
    (res : List β) (h : (x :: xs).mapM f = some res) :
    ∃ y ys, f x = some y ∧ xs.mapM f = some ys ∧ res = y :: ys := by
  rw [List.mapM_cons] at h
  cases hy : f x with
  | none => rw [hy] at h; simp at h
  | some y =>
      rw [hy] at h
      cases hys : xs.mapM f with
      | none => rw [hys] at h; simp at h
      | some ys =>
          rw [hys] at h
          refine ⟨y, ys, rfl, rfl, ?_⟩
          simpa using h.symm

/-- `permutationSort` returns as many columns as it is given. -/
theorem permutationSort_length (cols : List (List F)) (signs : List Bool) :
    (permutationSort cols signs).length = cols.length := by
  simp [permutationSort]

/-- C4 fails on the code: re-running expansion on an already-expanded
trace does not succeed — the computed column reports a duplicate-column
error and the sorted permutation aborts. -/
theorem expand_idempotent_counterexample :
    (ComputedColumn.mk "Z" (.Constant 5)).ExpandTrace [("X", ⟨[0, 1], some 0⟩)]
        = .ok [("X", ⟨[0, 1], some 0⟩), ("Z", ⟨[5, 5], some 5⟩)] ∧
    (ComputedColumn.mk "Z" (.Constant 5)).ExpandTrace
        [("X", ⟨[0, 1], some 0⟩), ("Z", ⟨[5, 5], some 5⟩)]
        = .err "Computed column already exists (\x7bZ\x7d)" ∧
    (SortedPermutation.mk ["Y"] [true] ["X"]).ExpandTrace
        [("X", ⟨[1, 0], some 0⟩)]
        = .ok [("X", ⟨[1, 0], some 0⟩), ("Y", ⟨[0, 1], some 0⟩)] ∧
    (SortedPermutation.mk ["Y"] [true] ["X"]).ExpandTrace
        [("X", ⟨[1, 0], some 0⟩), ("Y", ⟨[0, 1], some 0⟩)]
        = .panicked "target column already exists" :=
  ⟨rfl, rfl, rfl, rfl⟩

/-- C4 amended: expansion is not idempotent — whenever a computed-column
or (non-trivial) sorted-permutation expansion succeeds, running the same
expansion again on its output fails with the duplicate-column error or
the duplicate-target abort respectively. -/
theorem expand_not_idempotent (c : ComputedColumn) (p : SortedPermutation)
    (tr tr1 tr2 : Trace) (hne : p.Targets ≠ []) :
    (c.ExpandTrace tr = .ok tr1 →
      c.ExpandTrace tr1
        = .err ("Computed column already exists (\x7b" ++ c.name ++ "\x7d)")) ∧
    (p.ExpandTrace tr = .ok tr2 →
      p.ExpandTrace tr2 = .panicked "target column already exists") := by
  constructor
  · intro h
    unfold ComputedColumn.ExpandTrace at h
    split_ifs at h with hc
    split at h
    · exact absurd h (by simp)
    · split at h
      · exact absurd h (by simp)
      · simp only [ExpandResult.ok.injEq] at h
        subst h
        simp [ComputedColumn.ExpandTrace, hasColumn_append_cons]
      · simp only [ExpandResult.ok.injEq] at h
        subst h
        simp [ComputedColumn.ExpandTrace, hasColumn_append_cons]
  · intro h
    unfold SortedPermutation.ExpandTrace at h
    split_ifs at h with hany hlen
    split at h
    · exact absurd h (by simp)
    · rename_i pairs hm
      simp only [ExpandResult.ok.injEq] at h
      obtain ⟨t0, ts, hT⟩ : ∃ t0 ts, p.Targets = t0 :: ts := by
        cases hcase : p.Targets with
        | nil => exact absurd hcase hne
        | cons a b => exact ⟨a, b, rfl⟩
      obtain ⟨s0, ss, hS⟩ : ∃ s0 ss, p.Sources = s0 :: ss := by
        cases hcase : p.Sources with
        | nil =>
            rw [hcase, hT] at hlen
            simp at hlen
        | cons a b => exact ⟨a, b, rfl⟩
      rw [hT, hS, List.zip_cons_cons] at hm
      obtain ⟨y, ys, hy, hys, hpairs⟩ := mapM_cons_inv _ _ _ _ hm
      obtain ⟨c0, hc0, hyv⟩ : ∃ c0, tr.getCol s0 = some c0 ∧ y = (t0, c0) := by
        cases hg : tr.getCol s0 with
        | none => rw [hg] at hy; simp at hy
        | some cc =>
            rw [hg] at hy
            refine ⟨cc, rfl, ?_⟩
            simpa using hy.symm
      obtain ⟨d0, ds, hcols⟩ : ∃ d0 ds,
          permutationSort (pairs.map (fun pc => pc.2.data)) p.Signs
            = d0 :: ds := by
        have hlenc :
            (permutationSort (pairs.map (fun pc => pc.2.data)) p.Signs).length
              = pairs.length := by
          rw [permutationSort_length, List.length_map]
        cases hcase : permutationSort (pairs.map (fun pc => pc.2.data))
            p.Signs with
        | nil => rw [hcase, hpairs] at hlenc; simp at hlenc
        | cons a b => exact ⟨a, b, rfl⟩
      have hmem : ∃ x ∈ tr2, x.1 = t0 := by
        refine ⟨(t0, ⟨d0, c0.padding⟩), ?_, rfl⟩
        rw [← h]
        apply List.mem_append_right
        rw [hpairs, hyv] at hcols ⊢
        rw [hcols]
        simp [List.zip_cons_cons]
      have hcol2 : Trace.hasColumn tr2 t0 = true := by
        obtain ⟨x, hx1, hx2⟩ := hmem
        exact hasColumn_of_mem tr2 t0 x hx1 hx2
      unfold SortedPermutation.ExpandTrace
      rw [hT]
      simp [hcol2]

/-- Closed instance of `expand_not_idempotent` on a one-column computed
schema. -/
theorem expand_not_idempotent_witness :
    (ComputedColumn.mk "Z" (.Constant 5)).ExpandTrace
        [("X", ⟨[0, 1], some 0⟩), ("Z", ⟨[5, 5], some 5⟩)]
        = .err ("Computed column already exists (\x7b" ++ "Z" ++ "\x7d)") :=
  (expand_not_idempotent ⟨"Z", .Constant 5⟩ ⟨["Y"], [true], ["X"]⟩
      [("X", ⟨[0, 1], some 0⟩)]
      [("X", ⟨[0, 1], some 0⟩), ("Z", ⟨[5, 5], some 5⟩)]
      [("X", ⟨[0, 1], some 0⟩), ("Y", ⟨[0, 1], some 0⟩)]
      (by simp)).1 (by rfl)

/-- The running-maximum fold of `schema.RequiredSpillage` equals the
maximum of the initial value and the list maximum. -/
theorem foldl_max_spillage (l : List Computation) (init : ℕ) :
    l.foldl (fun mx a => max mx a.RequiredSpillage) init
      = max init (l.foldr (fun a m => max a.RequiredSpillage m) 0) := by
  induction l generalizing init with
  | nil => simp
  | cons a t ih => simp [List.foldl_cons, List.foldr_cons, ih, Nat.max_assoc]

/-- Every member's spillage is bounded by the folded maximum. -/
theorem le_foldr_max (a : Computation) (l : List Computation) (ha : a ∈ l) :
    a.RequiredSpillage ≤ l.foldr (fun a m => max a.RequiredSpillage m) 0 := by
  induction l with
  | nil => cases ha
  | cons b t ih =>
      rcases List.mem_cons.mp ha with h | h
      · subst h; exact le_max_left _ _
      · exact le_trans (ih h) (le_max_right _ _)

/-- C6: the spillage used for trace expansion equals
`max(1, maxᵢ required-spillage(assignmentᵢ))`, and a computed column's
required spillage is the maximum forward shift of its expression
(`Bounds().End`). -/
theorem required_spillage_formula (assignments : List Computation) :
    schemaRequiredSpillage assignments
        = max 1 (assignments.foldr (fun a m => max a.RequiredSpillage m) 0) ∧
    1 ≤ schemaRequiredSpillage assignments ∧
    (∀ a ∈ assignments,
      a.RequiredSpillage ≤ schemaRequiredSpillage assignments) ∧
    (∀ c : ComputedColumn,
      (Computation.computed c).RequiredSpillage = c.expr.bounds.End) := by
  refine ⟨foldl_max_spillage assignments 1, ?_, ?_, fun c => rfl⟩
  · unfold schemaRequiredSpillage
    rw [foldl_max_spillage]
    exact le_max_left _ _
  · intro a ha
    unfold schemaRequiredSpillage
    rw [foldl_max_spillage]
    exact le_trans (le_foldr_max a _ ha) (le_max_right _ _)

/-- Closed instance of `required_spillage_formula` on a one-assignment
schema with forward shift 2. -/
theorem required_spillage_formula_witness :
    (Computation.computed ⟨"D", .ColumnAccess "X" 2⟩).RequiredSpillage
      ≤ schemaRequiredSpillage [Computation.computed ⟨"D", .ColumnAccess "X" 2⟩] :=
  (required_spillage_formula
      [Computation.computed ⟨"D", .ColumnAccess "X" 2⟩]).2.2.1 _ (by simp)

/-- Once the selector flag is set, the remaining columns all receive
selector 0 and the delta is unchanged. -/
theorem lexRow_set (l : List (Column × Bool)) (i : ℤ) (d : F) :
    lexRow l i true d = (d, List.replicate l.length 0) := by
  induction l with
  | nil => rfl
  | cons cb t ih =>
      obtain ⟨col, sgn⟩ := cb
      simp [lexRow, ih, List.replicate_succ]

/-- With no set flag and a winning column at the front of the remaining
list, the winner takes selector 1 and determines the delta. -/
theorem lexRow_winner (pre post : List (Column × Bool)) (c : Column)
    (sgn : Bool) (i : ℤ) (hdiff : c.getV (i - 1) ≠ c.getV i) :
    (∀ cb ∈ pre, cb.1.getV (i - 1) = cb.1.getV i) →
    lexRow (pre ++ (c, sgn) :: post) i false 0 =
      ((if sgn then c.getV i - c.getV (i - 1) else c.getV (i - 1) - c.getV i),
       List.replicate pre.length 0 ++ 1 :: List.replicate post.length 0) := by
  induction pre with
  | nil =>
      intro _
      simp [lexRow, hdiff, lexRow_set]
  | cons cb t ih =>
      intro hpre
      obtain ⟨col, s⟩ := cb
      have h0 := hpre (col, s) (by simp)
      have ih' := ih (fun x hx => hpre x (List.mem_cons_of_mem _ hx))
      simp only [List.cons_append, lexRow, List.length_cons,
        List.replicate_succ]
      simp [h0, ih']

/-- C7: in a lexicographic-sort row, the smallest source index whose
value differs from the previous row gets selector 1 (all others 0) and
determines the delta with its sign; if no source differs, the delta is
zero and all selectors are 0.  The delta column of `ComputeColumns` is
exactly this per-row computation. -/
theorem lex_sort_row_correct (pairs pre post : List (Column × Bool))
    (c : Column) (sgn : Bool) (i : ℤ) :
    ((∀ cb ∈ pairs, cb.1.getV (i - 1) = cb.1.getV i) →
      lexRow pairs i false 0 = (0, List.replicate pairs.length 0)) ∧
    ((∀ cb ∈ pre, cb.1.getV (i - 1) = cb.1.getV i) →
      c.getV (i - 1) ≠ c.getV i →
      lexRow (pre ++ (c, sgn) :: post) i false 0 =
        ((if sgn then c.getV i - c.getV (i - 1)
          else c.getV (i - 1) - c.getV i),
         List.replicate pre.length 0 ++ 1 :: List.replicate post.length 0)) ∧
    (∀ (p : LexicographicSort) (cols : List Column) (nrows j : ℕ),
      j < nrows →
      (p.ComputeColumns cols nrows).1[j]?
        = some (lexRow ((p.sources.map (traceColumn cols)).zip p.signs)
            (j : ℤ) false 0).1) := by
  refine ⟨?_, fun hpre hdiff => lexRow_winner pre post c sgn i hdiff hpre, ?_⟩
  · intro hall
    induction pairs with
    | nil => rfl
    | cons cb t ih =>
        obtain ⟨col, s⟩ := cb
        have h0 := hall (col, s) (by simp)
        have ih' := ih (fun x hx => hall x (List.mem_cons_of_mem _ hx))
        simp only [List.length_cons, List.replicate_succ]
        simp [lexRow, h0, ih']
  · intro p cols nrows j hj
    simp [LexicographicSort.ComputeColumns, List.getElem?_map,
      List.getElem?_range, hj]

/-- Closed instance of `lex_sort_row_correct` on a constant column: no
winner, zero delta, zero selectors. -/
theorem lex_sort_row_correct_witness :
    lexRow [((⟨[4, 4], some 4⟩ : Column), true)] 1 false 0
      = (0, List.replicate 1 0) :=
  (lex_sort_row_correct [((⟨[4, 4], some 4⟩ : Column), true)] [] []
      ⟨[], none⟩ true 1).1 (by decide)

/-- Every element of a successful `mapM` comes from some element of the
input list. -/
theorem mapM_mem_option {α β : Type} (f : α → Option β) :
    ∀ (l : List α) (ys : List β), l.mapM f = some ys →
      ∀ y ∈ ys, ∃ x ∈ l, f x = some y := by
  intro l
  induction l with
  | nil =>
      intro ys h y hy
      rw [List.mapM_nil] at h
      simp only [Option.pure_def, Option.some.injEq] at h
      subst h
      cases hy
  | cons a t ih =>
      intro ys h y hy
      obtain ⟨b, bs, hb, hbs, rfl⟩ := mapM_cons_inv f a t ys h
      rcases List.mem_cons.mp hy with rfl | hmem
      · exact ⟨a, by simp, hb⟩
      · obtain ⟨x, hx, hfx⟩ := ih bs hbs y hmem
        exact ⟨x, List.mem_cons_of_mem _ hx, hfx⟩

/-- C8: HIR→MIR lowering produces guard-times-body products; an `IfZero`
keeping its true branch contributes the guard
`1 − Normalise(extractBody(cond))`, and one keeping its false branch
contributes `extractBody(cond)`. -/
theorem hir_lowering_guard (cnd t f : HExpr) (cc : Option Expr) (cb : Expr)
    (bct bcf : Option Expr)
    (hc : extractCondition cnd = some cc) (hb : extractBody cnd = some cb) :
    (extractCondition t = some bct →
      extractCondition (.IfZero cnd (some t) none)
        = some (mul3 cc (some (.Sub [.Constant 1, .Normalise cb])) bct)) ∧
    (extractCondition f = some bcf →
      extractCondition (.IfZero cnd none (some f))
        = some (mul3 cc (some cb) bcf)) ∧
    (∀ (e : HExpr) (mes : List Expr) (m : Expr),
      lowerTo e = some mes → m ∈ mes →
      ∃ e' ∈ expand e, ∃ (ce : Option Expr) (be : Expr),
        extractCondition e' = some ce ∧ extractBody e' = some be ∧
        mul2 ce (some be) = some m) := by
  refine ⟨?_, ?_, ?_⟩
  · intro ht
    simp [extractCondition, extractIfZeroCondition, hc, hb, ht]
  · intro hf
    simp [extractCondition, extractIfZeroCondition, hc, hb, hf]
  · intro e mes m hl hm
    obtain ⟨e', he', hone⟩ := mapM_mem_option lowerToOne (expand e) mes hl m hm
    unfold lowerToOne at hone
    cases hce : extractCondition e' with
    | none => rw [hce] at hone; simp at hone
    | some ce =>
        rw [hce] at hone
        cases hbe : extractBody e' with
        | none => rw [hbe] at hone; simp at hone
        | some be =>
            rw [hbe] at hone
            refine ⟨e', he', ce, be, hce, hbe, ?_⟩
            simpa using hone

/-- Closed instance of `hir_lowering_guard` on leaf condition and
branch. -/
theorem hir_lowering_guard_witness :
    extractCondition (.IfZero (.ColumnAccess "C" 0)
        (some (.ColumnAccess "T" 0)) none)
      = some (mul3 none
          (some (.Sub [.Constant 1, .Normalise (.ColumnAccess "C" 0)])) none) :=
  (hir_lowering_guard (.ColumnAccess "C" 0) (.ColumnAccess "T" 0)
      (.ColumnAccess "E" 0) none (.ColumnAccess "C" 0) none none
      (by simp [extractCondition]) (by simp [extractBody])).1
    (by simp [extractCondition])

/-- The test loop returns false exactly when some defined, non-zero
value occurs. -/
theorem testValsLoop_eq_false (l : List (Option F)) :
    testValsLoop l = false ↔ ∃ x : F, some x ∈ l ∧ x ≠ 0 := by
  induction l with
  | nil => simp [testValsLoop]
  | cons v rest ih =>
      cases v with
      | none => simp [testValsLoop, ih]
      | some x =>
          by_cases hx : x = 0
          · subst hx
            simp [testValsLoop, ih]
          · refine ⟨fun _ => ⟨x, by simp, hx⟩, fun _ => by simp [testValsLoop, hx]⟩

/-- C10: an HIR vanishing test is vacuously satisfied wherever its
expression is undefined: `TestAt` can return false only on a defined
non-zero value, a row whose values are all undefined passes, and an
out-of-bounds column access alone can never cause a failure. -/
theorem hir_vanishing_skips_undefined (p : ZeroArrayTest) (row : ℤ)
    (tr : Trace) :
    (p.TestAt row tr = false →
      ∃ x : F, some x ∈ p.expr.evalAllAt row tr ∧ x ≠ 0) ∧
    ((∀ v ∈ p.expr.evalAllAt row tr, v = none) → p.TestAt row tr = true) ∧
    (∀ (n : String) (s : ℤ) (c : Column), tr.getCol n = some c →
      row + s < 0 →
      ZeroArrayTest.TestAt ⟨.ColumnAccess n s⟩ row tr = true) := by
  refine ⟨?_, ?_, ?_⟩
  · intro h
    exact (testValsLoop_eq_false _).mp h
  · intro hall
    cases hb : p.TestAt row tr with
    | true => rfl
    | false =>
        exfalso
        obtain ⟨x, hx, _⟩ := (testValsLoop_eq_false _).mp hb
        have := hall _ hx
        simp at this
  · intro n s c hc hneg
    unfold ZeroArrayTest.TestAt
    simp [HExpr.evalAllAt, HExpr.evalAt?, hc, hneg, testValsLoop]

/-- Closed instance of `hir_vanishing_skips_undefined`: a backward
access at row 0 is skipped. -/
theorem hir_vanishing_skips_undefined_witness :
    ZeroArrayTest.TestAt ⟨.ColumnAccess "X" (-1)⟩ 0 [("X", ⟨[3], some 0⟩)]
      = true :=
  (hir_vanishing_skips_undefined ⟨.ColumnAccess "X" (-1)⟩ 0
      [("X", ⟨[3], some 0⟩)]).2.2 "X" (-1) ⟨[3], some 0⟩ (by rfl) (by norm_num)

/-- The batch fold keeps the last defined error of the received list. -/
theorem lastError_eq (l : List (Option ℕ)) :
    lastError l = (l.filter (fun e => e.isSome)).getLastD none := by
  have aux : ∀ (l : List (Option ℕ)) (acc : Option ℕ),
      l.foldl (fun acc e =>
        match e with
        | none => acc
        | some _ => e) acc
        = (l.filter (fun e => e.isSome)).getLastD acc := by
    intro l
    induction l with
    | nil => intro acc; rfl
    | cons v rest ih =>
        intro acc
        cases v with
        | none =>
            have h1 : (none :: rest).filter (fun e => e.isSome)
                = rest.filter (fun e => e.isSome) := by simp
            rw [h1]
            exact ih acc
        | some x =>
            have h1 : (some x :: rest).filter (fun e => e.isSome)
                = some x :: rest.filter (fun e => e.isSome) := by simp
            rw [h1, List.getLastD_cons]
            exact ih (some x)
  exact aux l none

/-- `firstFailure` is the head of the defined errors. -/
theorem firstFailure_eq (l : List (Option ℕ)) :
    firstFailure l = (l.filter (fun e => e.isSome)).headD none := by
  induction l with
  | nil => rfl
  | cons v rest ih =>
      cases v with
      | none =>
          have h1 : (none :: rest).filter (fun e => e.isSome)
              = rest.filter (fun e => e.isSome) := by simp
          rw [h1]
          exact ih
      | some x => rfl

/-- Reading a list back by index over `range` reproduces the list. -/
theorem map_getD_range {α : Type} (l : List α) (d : α) :
    (List.range l.length).map (fun i => l.getD i d) = l := by
  induction l with
  | nil => rfl
  | cons a t ih =>
      rw [List.length_cons, List.range_succ_eq_map]
      simp only [List.map_cons, List.getD_cons_zero, List.map_map]
      have hcomp : ((fun i => (a :: t).getD i d) ∘ Nat.succ)
          = fun i => t.getD i d := by
        funext i
        simp [List.getD_cons_succ]
      rw [hcomp, ih]

/-- A valid arrival order produces a permutation of the batch results. -/
theorem applySchedule_perm (b : List (Option ℕ)) (o : List ℕ)
    (h : o.Perm (List.range b.length)) : (applySchedule b o).Perm b := by
  have h2 := h.map (fun i => b.getD i none)
  rw [map_getD_range] at h2
  exact h2

/-- With at most one failing result in the batch, the last received
error equals the first failing result in declaration order, whatever the
arrival permutation. -/
theorem countP_le_one_lastError (b l : List (Option ℕ)) (hperm : l.Perm b)
    (hone : b.countP (fun e => e.isSome) ≤ 1) :
    lastError l = firstFailure b := by
  rw [lastError_eq, firstFailure_eq]
  have hpf : (l.filter (fun e => e.isSome)).Perm
      (b.filter (fun e => e.isSome)) := hperm.filter _
  have hlen : (b.filter (fun e => e.isSome)).length ≤ 1 := by
    simpa [List.countP_eq_length_filter] using hone
  cases hfb : b.filter (fun e => e.isSome) with
  | nil =>
      rw [hfb] at hpf
      have hl : l.filter (fun e => e.isSome) = [] := List.Perm.eq_nil hpf
      rw [hl]
      rfl
  | cons x xs =>
      rw [hfb] at hpf hlen
      have hxs : xs = [] := by
        simp only [List.length_cons] at hlen
        exact List.length_eq_zero.mp (by omega)
      subst hxs
      have hl : l.filter (fun e => e.isSome) = [x] :=
        List.perm_singleton.mp hpf
      rw [hl]
      rfl

/-- `firstFailure` over an appended list prefers the first part. -/
theorem firstFailure_append (l1 l2 : List (Option ℕ)) :
    firstFailure (l1 ++ l2)
      = match firstFailure l1 with
        | some e => some e
        | none => firstFailure l2 := by
  induction l1 with
  | nil => rfl
  | cons v rest ih =>
      cases v with
      | none => simpa [firstFailure] using ih
      | some x => rfl

/-- Batching then flattening reproduces the constraint results. -/
theorem chunks_join (bs : ℕ) (hbs : 0 < bs) :
    ∀ (n : ℕ) (l : List (Option ℕ)), l.length ≤ n → (chunks bs l).flatten = l := by
  intro n
  induction n with
  | zero =>
      intro l hl
      have hnil : l = [] := List.length_eq_zero.mp (Nat.le_zero.mp hl)
      subst hnil
      simp [chunks]
  | succ n ih =>
      intro l hl
      rw [chunks.eq_def]
      split_ifs with hcond
      · rcases hcond with h0 | hnil
        · omega
        · subst hnil; rfl
      · push_neg at hcond
        have hlen : (l.drop bs).length ≤ n := by
          have : l.length ≠ 0 := by
            intro hz
            exact hcond.2 (List.length_eq_zero.mp hz)
          simp only [List.length_drop]
          omega
        simp only [List.flatten_cons]
        rw [ih (l.drop bs) hlen]
        exact List.take_append_drop bs l

/-- With at most one failure per batch, the batch loop returns the first
failure in declaration order regardless of arrival schedules. -/
theorem runBatches_firstFailure :
    ∀ (chs : List (List (Option ℕ))) (sched : List (List ℕ)),
      List.Forall₂ (fun b o => o.Perm (List.range b.length)) chs sched →
      (∀ b ∈ chs, b.countP (fun e => e.isSome) ≤ 1) →
      runBatches chs sched = firstFailure chs.flatten := by
  intro chs sched hf
  induction hf with
  | nil => intro _; rfl
  | cons hrel hrest ih =>
      rename_i b o chs' sched'
      intro hone
      have hb : processConstraintBatch b o = firstFailure b := by
        unfold processConstraintBatch
        exact countP_le_one_lastError b _ (applySchedule_perm b o hrel)
          (hone b (by simp))
      have hjoin : (b :: chs').flatten = b ++ chs'.flatten := by simp
      rw [hjoin, firstFailure_append]
      have hrun : runBatches (b :: chs') (o :: sched')
          = match processConstraintBatch b o with
            | some e => some e
            | none => runBatches chs' sched' := rfl
      rw [hrun, hb]
      cases hfb : firstFailure b with
      | some e => simp
      | none =>
          simp only
          exact ih (fun x hx => hone x (List.mem_cons_of_mem _ hx))

/-- C1 fails on the code: within a batch the winner is the *last* error
received from the channel, not the first by declaration index, and two
runs on the identical results and batch boundaries but different
arrival orders return different failures. -/
theorem accepts_first_failure_counterexample :
    acceptsRun 2 [some 0, some 1] [[0, 1]] = some 1 ∧
    acceptsRun 2 [some 0, some 1] [[1, 0]] = some 0 ∧
    ([0, 1] : List ℕ).Perm (List.range 2) ∧
    ([1, 0] : List ℕ).Perm (List.range 2) ∧
    (some 1 : Option ℕ) ≠ some 0 := by
  refine ⟨?_, ?_, by decide, by decide, by decide⟩ <;>
    simp [acceptsRun, chunks, runBatches, processConstraintBatch,
      applySchedule, lastError]

/-- C1 amended: the acceptor returns the last failing result received in
the first failing batch; this is schedule-independent (and equals the
first failing constraint in declaration order) exactly when each batch
holds at most one failing constraint. -/
theorem accepts_deterministic_amended (bs : ℕ) (results : List (Option ℕ))
    (sched : List (List ℕ)) (hbs : 0 < bs)
    (hsched : List.Forall₂ (fun b o => o.Perm (List.range b.length))
      (chunks bs results) sched)
    (hone : ∀ b ∈ chunks bs results, b.countP (fun e => e.isSome) ≤ 1) :
    acceptsRun bs results sched = firstFailure results := by
  unfold acceptsRun
  rw [runBatches_firstFailure _ _ hsched hone,
    chunks_join bs hbs results.length results le_rfl]

/-- Closed instance of `accepts_deterministic_amended` with two
singleton batches. -/
theorem accepts_deterministic_amended_witness :
    acceptsRun 1 [none, some 5] [[0], [0]] = firstFailure [none, some 5] := by
  have hch : chunks 1 [none, some 5] = [[none], [some 5]] := by
    simp [chunks]
  apply accepts_deterministic_amended 1 [none, some 5] [[0], [0]]
    (by norm_num)
  · rw [hch]
    exact List.Forall₂.cons (by decide)
      (List.Forall₂.cons (by decide) List.Forall₂.nil)
  · intro b hb
    rw [hch] at hb
    simp only [List.mem_cons, List.not_mem_nil, or_false] at hb
    rcases hb with rfl | rfl <;> decide

end Corset
